import Mathlib

/-!
Verification of the arioneo-redis race-chart ingestion subsystem.

The JavaScript source (an Express server) is shallowly embedded here:
JS strings are modelled as `List Char`, JS numbers on the integer/rational
paths as `Nat`/`Int`/`Rat`, JS objects holding horse data as association
lists in insertion order (matching `Object.keys`/`Object.entries`
enumeration order for string keys).  Regular-expression tests from the
source are embedded as executable scanners with the same
leftmost-match/greedy semantics on the character lists.
-/

namespace Arioneo

/-! ## Basic character classes (JS regexp classes) -/

/-- JS `\s` (whitespace class), restricted to the ASCII whitespace used by
the source documents. -/
def isSpaceJS (c : Char) : Bool :=
  c = ' ' || c = '\t' || c = '\n' || c = '\r' || c = '\x0b' || c = '\x0c'

/-- JS `\w`: `[A-Za-z0-9_]`. -/
def isWordChar (c : Char) : Bool :=
  c.isAlpha || c.isDigit || c = '_'

/-- JS `[a-zA-Z0-9]`. -/
def isAlnumJS (c : Char) : Bool :=
  c.isAlpha || c.isDigit

/-- JS `[a-zA-Z]`. -/
def isLetterJS (c : Char) : Bool := c.isAlpha

/-- JS `.` (no `s` flag): any char except line terminators. -/
def isDotJS (c : Char) : Bool := !(c = '\n' || c = '\r')

/-- Lower-case a whole JS string (`toLowerCase`, ASCII range). -/
def lowerS (s : List Char) : List Char := s.map Char.toLower

/-- Upper-case a whole JS string (`toUpperCase`, ASCII range). -/
def upperS (s : List Char) : List Char := s.map Char.toUpper

/-- Drop trailing characters satisfying `p` (helper for `trim`-like ops). -/
def dropEndWhile (p : Char → Bool) (s : List Char) : List Char :=
  (s.reverse.dropWhile p).reverse

/-- JS `String.prototype.trim`. -/
def jsTrim (s : List Char) : List Char :=
  dropEndWhile isSpaceJS (s.dropWhile isSpaceJS)

/-- Does `b` occur at the start of `a`? (exact characters) -/
def startsWith : List Char → List Char → Bool
  | _, [] => true
  | [], _ :: _ => false
  | a :: as, b :: bs => a = b && startsWith as bs

/-- JS `String.prototype.includes`: does `b` occur inside `a`? -/
def jsIncludes (a b : List Char) : Bool :=
  match a with
  | [] => startsWith [] b
  | _ :: tl => startsWith a b || jsIncludes tl b

/-- Case-insensitive literal match: consume pattern `p` at the head of `s`
(as a JS `/.../i` literal does) and return the remainder. -/
def ciConsume : List Char → List Char → Option (List Char)
  | [], s => some s
  | _ :: _, [] => none
  | p :: ps, c :: cs => if p.toLower = c.toLower then ciConsume ps cs else none

/-- Numeric value of a digit run (JS `parseInt` on an all-digit string). -/
def natOfDigits (s : List Char) : Nat :=
  s.foldl (fun acc c => acc * 10 + (c.toNat - '0'.toNat)) 0

end Arioneo

namespace Arioneo

/-! ## Position Digit Disambiguator (`RaceChartParser.parsePositions`)

Source: `src/unnamed/part_001` lines 3492-3529.  The digit string is
modelled as the list of its digit values. -/

/-- The `while` loop of `parsePositions`: scan left to right; `1` followed
by `0` always becomes 10; `1` followed by `1` or `2` becomes a double-digit
position only when `allowDouble` (the loop's condition
`expectedCount === 0 || digitsStr.length > expectedCount`) holds. -/
def scanPositions (allowDouble : Bool) : List Nat → List Nat
  | [] => []
  | [d] => [d]
  | d :: e :: rest =>
    if d = 1 && e = 0 then
      10 :: scanPositions allowDouble rest
    else if d = 1 && (e = 1 || e = 2) && allowDouble then
      (10 + e) :: scanPositions allowDouble rest
    else
      d :: scanPositions allowDouble (e :: rest)

/-- `RaceChartParser.parsePositions(digitsStr, expectedCount)`: if the
digit count is positive and equals the expected count, every digit is read
singly; otherwise the left-to-right scan runs. -/
def parsePositions (digits : List Nat) (expectedCount : Nat) : List Nat :=
  if 0 < expectedCount ∧ digits.length = expectedCount then digits
  else scanPositions (expectedCount = 0 || decide (digits.length > expectedCount)) digits

/-- Modelled from the spec's words (section 4.3 rule), for comparison with
the source function: read singly when the run length equals the expected
count, otherwise scan with "1 then 0 is always 10" and "1 then 1-or-2 is
double-digit only when the run is longer than expected". -/
def specScanPositions (runLonger : Bool) : List Nat → List Nat
  | [] => []
  | [d] => [d]
  | d :: e :: rest =>
    if d = 1 && e = 0 then
      10 :: specScanPositions runLonger rest
    else if d = 1 && (e = 1 || e = 2) && runLonger then
      (10 + e) :: specScanPositions runLonger rest
    else
      d :: specScanPositions runLonger (e :: rest)

/-- Spec-side disambiguator (section 4.3 / section 8 of the spec). -/
def specParsePositions (digits : List Nat) (expectedCount : Nat) : List Nat :=
  if digits.length = expectedCount then digits
  else specScanPositions (decide (digits.length > expectedCount)) digits

end Arioneo

namespace Arioneo

theorem scanPositions_eq_spec (b : Bool) : ∀ l, scanPositions b l = specScanPositions b l
  | [] => rfl
  | [_] => rfl
  | d :: e :: rest => by
    have h1 := scanPositions_eq_spec b rest
    have h2 := scanPositions_eq_spec b (e :: rest)
    simp only [scanPositions, specScanPositions, h1, h2]

/-- C1: the position digit disambiguator satisfies the spec's four
examples, and in full generality it reads every digit singly when the
run length equals the expected call count and otherwise scans left to
right, consuming "1 0" as 10 always and "1 1"/"1 2" as a double-digit
position exactly when the run is longer than the expected count. -/
theorem parsePositions_correct :
    parsePositions [1, 1, 1, 1] 4 = [1, 1, 1, 1] ∧
    parsePositions [1, 0, 9, 7, 6, 5] 5 = [10, 9, 7, 6, 5] ∧
    parsePositions [1, 1, 9, 7, 6, 5] 5 = [11, 9, 7, 6, 5] ∧
    parsePositions [1, 2, 8, 6, 5] 5 = [1, 2, 8, 6, 5] ∧
    ∀ (digits : List Nat) (expectedCount : Nat),
      parsePositions digits expectedCount = specParsePositions digits expectedCount := by
  refine ⟨by decide, by decide, by decide, by decide, ?_⟩
  intro ds n
  unfold parsePositions specParsePositions
  by_cases hlen : ds.length = n
  · by_cases hn : 0 < n
    · simp [hlen, hn]
    · have hn0 : n = 0 := by omega
      have hds : ds = [] := List.length_eq_zero.mp (by omega)
      subst hn0; subst hds; simp [scanPositions, specScanPositions]
  · rw [if_neg (fun h => hlen h.2), if_neg hlen, scanPositions_eq_spec]
    congr 1
    by_cases hn : n = 0
    · subst hn
      have : ds.length > 0 := by omega
      simp [this]
    · simp [hn]

end Arioneo

namespace Arioneo

/-! ## Horse Identity Resolver

Source: `src/unnamed/part_001` lines 694-736 (`formatHorseNameForDisplay`),
1238-1256 (`normalizeHorseNameForMatch`), 1259-1290 (`resolveHorseAlias`). -/

/-- Is the previous character (if any) a JS word character?  Used for the
`\b` boundary: a match position is a boundary when exactly one side is a
word character. -/
def prevIsWord : Option Char → Bool
  | none => false
  | some c => isWordChar c

/-- Try `(19|20)\d{2}\b` at the current position (boundary before already
checked by the caller); returns the four matched characters. -/
def fourDigitYearAt : List Char → Option (List Char)
  | c1 :: c2 :: c3 :: c4 :: rest =>
    if ((c1 = '1' && c2 = '9') || (c1 = '2' && c2 = '0')) && c3.isDigit && c4.isDigit
        && !(match rest with | r :: _ => isWordChar r | [] => false) then
      some [c1, c2, c3, c4]
    else none
  | _ => none

/-- Leftmost match of `/\b(19|20)\d{2}\b/` (the 4-digit year lookup in
`normalizeHorseNameForMatch`). -/
def findFourDigitYear (prev : Option Char) : List Char → Option (List Char)
  | [] => none
  | c :: cs =>
    if !prevIsWord prev then
      match fourDigitYearAt (c :: cs) with
      | some y => some y
      | none => findFourDigitYear (some c) cs
    else findFourDigitYear (some c) cs

/-- Try `\d{2}\b` at the current position for `/\b(\d{2})\b/`. -/
def twoDigitYearAt : List Char → Option (List Char)
  | c1 :: c2 :: rest =>
    if c1.isDigit && c2.isDigit
        && !(match rest with | r :: _ => isWordChar r | [] => false) then
      some [c1, c2]
    else none
  | _ => none

/-- Leftmost match of `/\b(\d{2})\b/` (the 2-digit year lookup in
`normalizeHorseNameForMatch`). -/
def findTwoDigitYear (prev : Option Char) : List Char → Option (List Char)
  | [] => none
  | c :: cs =>
    if !prevIsWord prev then
      match twoDigitYearAt (c :: cs) with
      | some y => some y
      | none => findTwoDigitYear (some c) cs
    else findTwoDigitYear (some c) cs

/-- `normalizeHorseNameForMatch(name)`: letters-only lower-cased, plus a
2-digit year taken from the first 4-digit year token if present, else the
first free-standing 2-digit token.  (The JS guard `if (!name) return ''`
coincides with the computation on the empty string.) -/
def normalizeHorseNameForMatch (name : List Char) : List Char :=
  let letters := lowerS (name.filter isLetterJS)
  let year : List Char :=
    match findFourDigitYear none name with
    | some y => y.drop 2
    | none =>
      match findTwoDigitYear none name with
      | some y => y
      | none => []
  letters ++ year

/-- `name.replace(/[^a-zA-Z0-9]/g, '').toLowerCase()`. -/
def stripAlnumLower (s : List Char) : List Char :=
  lowerS (s.filter isAlnumJS)

/-- `\s*(.+)$` / `[^a-zA-Z0-9]*(.+)$` tails of the display-format year
patterns: skip the (greedy) `skip`-class run; the `.+` group is the
remainder if non-empty and free of line terminators, else (backtracking
the greedy run by one) the last skipped character. -/
def group2After (skip : Char → Bool) (rest : List Char) : Option (List Char) :=
  let r2 := rest.dropWhile skip
  match r2 with
  | _ :: _ => if r2.all isDotJS then some r2 else none
  | [] =>
    match rest.getLast? with
    | some c => if isDotJS c then some [c] else none
    | none => none

/-- Pattern 1 of `formatHorseNameForDisplay`: `^(20[2-9]\d)\s*(.+)$`;
returns (2-digit year, rest of the name). -/
def matchYearStart4 : List Char → Option (List Char × List Char)
  | c1 :: c2 :: c3 :: c4 :: rest =>
    if c1 = '2' && c2 = '0' && ('2' ≤ c3 && c3 ≤ '9') && c4.isDigit then
      match group2After isSpaceJS rest with
      | some g2 => some ([c3, c4], g2)
      | none => none
    else none
  | _ => none

/-- Pattern 2 of `formatHorseNameForDisplay`: `^([2-9]\d)[^a-zA-Z0-9]*(.+)$`. -/
def matchYearStart2 : List Char → Option (List Char × List Char)
  | c1 :: c2 :: rest =>
    if ('2' ≤ c1 && c1 ≤ '9') && c2.isDigit then
      match group2After (fun c => !isAlnumJS c) rest with
      | some g2 => some ([c1, c2], g2)
      | none => none
    else none
  | _ => none

/-- Tail of pattern 3: `[^a-zA-Z0-9]*([2-9]\d)[^a-zA-Z0-9]*$`.  The year
position is unique (anything after it must be non-alphanumeric), so a
left-to-right scan over the junk run finds the only possible match. -/
def yearEndScan : List Char → Option (List Char)
  | [] => none
  | c1 :: rest =>
    if ('2' ≤ c1 && c1 ≤ '9') &&
        (match rest with
         | c2 :: rest2 => c2.isDigit && rest2.all (fun c => !isAlnumJS c)
         | [] => false) then
      some [c1, rest.headD ' ']
    else if !isAlnumJS c1 then yearEndScan rest
    else none

/-- Pattern 3 of `formatHorseNameForDisplay`:
`^(.+?)[^a-zA-Z0-9]*([2-9]\d)[^a-zA-Z0-9]*$` (lazy first group, so the
shortest line-terminator-free prefix that leaves a matching tail wins);
returns (name group, year group). -/
def matchYearEndGo (acc : List Char) : List Char → Option (List Char × List Char)
  | [] => none
  | c :: cs =>
    if isDotJS c then
      match yearEndScan cs with
      | some yr => some (acc ++ [c], yr)
      | none => matchYearEndGo (acc ++ [c]) cs
    else none

def matchYearEnd (s : List Char) : Option (List Char × List Char) :=
  matchYearEndGo [] s

/-- The final cleanup of `formatHorseNameForDisplay`:
`replace(/^[^a-zA-Z]+|[^a-zA-Z]+$/g, '').trim().toUpperCase()` plus the
optional year suffix. -/
def formatFinish (nm : List Char) (yr : Option (List Char)) : List Char :=
  let cleaned :=
    upperS (jsTrim (dropEndWhile (fun c => !isLetterJS c)
      (nm.dropWhile (fun c => !isLetterJS c))))
  match yr with
  | some y => cleaned ++ ' ' :: y
  | none => cleaned

/-- `formatHorseNameForDisplay(name)`: "HORSENAME YY" display form.  The
three year patterns are tried in order on the input (trimmed, stripped of
leading non-alphanumerics); pattern 3 applies only when its name group is
longer than two characters. -/
def formatHorseNameForDisplay (name : List Char) : List Char :=
  let hn0 := jsTrim name
  let hn1 := hn0.dropWhile (fun c => !isAlnumJS c)
  match matchYearStart4 hn1 with
  | some (yr, rest) => formatFinish rest (some yr)
  | none =>
    match matchYearStart2 hn1 with
    | some (yr, rest) => formatFinish rest (some yr)
    | none =>
      match matchYearEnd hn1 with
      | some (nm, yr) =>
        if nm.length > 2 then formatFinish nm (some yr) else formatFinish hn1 none
      | none => formatFinish hn1 none

/-- A canonical registry entry (`mapping[name]` in the source); the
timestamp bookkeeping fields (`addedAt`, `updatedAt`, `renamedFrom`) are
not modelled. -/
structure HorseData where
  owner : List Char
  country : List Char
  isHistoric : Bool
  aliases : List (List Char)
  deriving Repr, DecidableEq

/-- The horse mapping object, in insertion order. -/
abbrev Mapping := List (List Char × HorseData)

/-- The three-way comparison of `resolveHorseAlias` applied to a candidate
string `k` (a primary name or an alias). -/
def resolveMatches (nameLower nameStripped nameNorm k : List Char) : Bool :=
  lowerS k == nameLower || stripAlnumLower k == nameStripped ||
    normalizeHorseNameForMatch k == nameNorm

/-- `resolveHorseAlias(horseName, horseMapping)`: first key whose
lower-cased, stripped, or normalized form matches; else the first entry
having such an alias; else the input unchanged.  (The JS guard
`if (!horseName || !horseMapping) return horseName` is the empty-string
case.) -/
def resolveHorseAlias (horseName : List Char) (horseMapping : Mapping) : List Char :=
  match horseName with
  | [] => horseName
  | _ :: _ =>
    let nameLower := jsTrim (lowerS horseName)
    let nameStripped := stripAlnumLower horseName
    let nameNorm := normalizeHorseNameForMatch horseName
    match (horseMapping : List _).find?
        (fun p => resolveMatches nameLower nameStripped nameNorm p.1) with
    | some p => p.1
    | none =>
      match (horseMapping : List _).find?
          (fun p => p.2.aliases.any (resolveMatches nameLower nameStripped nameNorm)) with
      | some p => p.1
      | none => horseName

end Arioneo

namespace Arioneo

/-- Registry entry with all fields blank (the shape auto-created by the
mutation endpoints). -/
def blankHorse : HorseData := ⟨[], [], false, []⟩

/-- Mapping with canonical entry "2022 Ginger Punch" carrying the merged
alias "Ginger Punch" (the spec's section-8 scenario). -/
def gingerPunchMapping : Mapping :=
  [("2022 Ginger Punch".data,
    { blankHorse with aliases := ["Ginger Punch".data] })]

/-- Mapping holding the single canonical name "Horse 12". -/
def horse12Mapping : Mapping :=
  [("Horse 12".data, blankHorse)]

/-- C4: "2022 Ginger Punch" and "GINGER PUNCH 22" normalize to the same
letters-plus-2-digit-year key, and resolving "GINGER PUNCH 22" against the
mapping holding canonical "2022 Ginger Punch" (alias "Ginger Punch")
returns that canonical entry. -/
theorem normalize_resolve_gingerPunch :
    normalizeHorseNameForMatch "2022 Ginger Punch".data = "gingerpunch22".data ∧
    normalizeHorseNameForMatch "GINGER PUNCH 22".data = "gingerpunch22".data ∧
    resolveHorseAlias "GINGER PUNCH 22".data gingerPunchMapping =
      "2022 Ginger Punch".data :=
  ⟨by decide, by decide, by decide⟩

end Arioneo

namespace Arioneo

theorem find?_eq_some_of_mem {α : Type} {l : List α} {p : α → Bool} {x : α}
    (hx : x ∈ l) (hpx : p x = true) : ∃ y, l.find? p = some y := by
  induction l with
  | nil => cases hx
  | cons a tl ih =>
    by_cases ha : p a = true
    · exact ⟨a, by rw [List.find?_cons_of_pos _ ha]⟩
    · rcases List.mem_cons.mp hx with rfl | hx'
      · exact absurd hpx ha
      · obtain ⟨y, hy⟩ := ih hx'
        exact ⟨y, by rw [List.find?_cons_of_neg _ ha, hy]⟩

theorem resolveHorseAlias_eq_of_direct {mapping : Mapping} {name : List Char}
    {q : List Char × HorseData} (h : name ≠ [])
    (hq : mapping.find? (fun p => resolveMatches (jsTrim (lowerS name))
      (stripAlnumLower name) (normalizeHorseNameForMatch name) p.1) = some q) :
    resolveHorseAlias name mapping = q.1 := by
  cases name with
  | nil => exact absurd rfl h
  | cons c cs => simp only [resolveHorseAlias, hq]

/-- C7 (amended): formatting a canonical name and re-resolving the display
string returns that canonical identity, provided the display form
normalizes back to the same key as the canonical name (true whenever the
embedded year token is recognized) and no other key of the mapping matches
the display string. -/
theorem resolveHorseAlias_format_roundTrip
    (mapping : Mapping) (k : List Char) (d : HorseData)
    (hmem : (k, d) ∈ mapping)
    (hne : formatHorseNameForDisplay k ≠ [])
    (hnorm : normalizeHorseNameForMatch (formatHorseNameForDisplay k) =
      normalizeHorseNameForMatch k)
    (huniq : ∀ p ∈ mapping,
      resolveMatches (jsTrim (lowerS (formatHorseNameForDisplay k)))
        (stripAlnumLower (formatHorseNameForDisplay k))
        (normalizeHorseNameForMatch (formatHorseNameForDisplay k)) p.1 = true →
      p.1 = k) :
    resolveHorseAlias (formatHorseNameForDisplay k) mapping = k := by
  have hk : resolveMatches (jsTrim (lowerS (formatHorseNameForDisplay k)))
      (stripAlnumLower (formatHorseNameForDisplay k))
      (normalizeHorseNameForMatch (formatHorseNameForDisplay k)) k = true := by
    unfold resolveMatches
    rw [hnorm]
    simp
  obtain ⟨q, hq⟩ := find?_eq_some_of_mem
    (l := mapping)
    (p := fun p => resolveMatches (jsTrim (lowerS (formatHorseNameForDisplay k)))
      (stripAlnumLower (formatHorseNameForDisplay k))
      (normalizeHorseNameForMatch (formatHorseNameForDisplay k)) p.1)
    hmem hk
  have hmemq := List.mem_of_find?_eq_some hq
  have hpq0 := List.find?_some hq
  have hq1 : q.1 = k := huniq q hmemq hpq0
  rw [resolveHorseAlias_eq_of_direct hne hq, hq1]

/-- Witness for C7: the round trip at the "2022 Ginger Punch" mapping. -/
theorem resolveHorseAlias_format_roundTrip_witness :
    resolveHorseAlias (formatHorseNameForDisplay "2022 Ginger Punch".data)
      gingerPunchMapping = "2022 Ginger Punch".data :=
  resolveHorseAlias_format_roundTrip gingerPunchMapping
    "2022 Ginger Punch".data
    { blankHorse with aliases := ["Ginger Punch".data] }
    (by decide) (by decide) (by decide) (by decide)

/-- Counterexample to C7 as stated: for the canonical name "Horse 12" the
display form is "HORSE" (the digits "12" are not a recognized year token),
and re-resolving it does not return the canonical identity. -/
theorem resolveHorseAlias_format_roundTrip_cex :
    resolveHorseAlias (formatHorseNameForDisplay "Horse 12".data)
      horse12Mapping ≠ "Horse 12".data := by decide

end Arioneo

namespace Arioneo

/-! ## Registry mutation operations (merge / unmerge / rename)

Source: `src/unnamed/part_001` lines 2086-2165 (`POST /api/horses/merge`),
2168-2214 (`POST /api/horses/unmerge`), 2217-2294 (`POST /api/horses/rename`).
The mapping object is an association list in insertion order; JS property
deletion, in-place assignment and fresh-key assignment are `eraseKey`,
`updateKey` and `setKey`. -/

/-- `mapping[k]` (keys are unique in a JS object; first occurrence). -/
def lookupKey (k : List Char) (m : Mapping) : Option HorseData :=
  (m.find? (fun p => decide (p.1 = k))).map Prod.snd

/-- `k in mapping`. -/
def hasKey (k : List Char) (m : Mapping) : Bool :=
  m.any (fun p => decide (p.1 = k))

/-- In-place update of the entry at key `k` (keeps object-key order). -/
def updateKey (k : List Char) (f : HorseData → HorseData) (m : Mapping) : Mapping :=
  m.map (fun p => if p.1 = k then (p.1, f p.2) else p)

/-- `delete mapping[k]`. -/
def eraseKey (k : List Char) (m : Mapping) : Mapping :=
  m.filter (fun p => decide (p.1 ≠ k))

/-- `mapping[k] = d`: overwrite in place when present, else append. -/
def setKey (k : List Char) (d : HorseData) (m : Mapping) : Mapping :=
  if hasKey k m then updateKey k (fun _ => d) m else m ++ [(k, d)]

/-- One iteration of the merge endpoint's `for (const aliasName of
aliasNames)` loop: skip self, skip an alias already owned by a different
entry, absorb an existing entry of that name (copying unset owner/country
and its alias list, then deleting it), finally record the alias if new. -/
def mergeOne (primaryName : List Char) (m : Mapping) (aliasName : List Char) : Mapping :=
  if aliasName = primaryName then m
  else if m.any (fun p => decide (p.1 ≠ primaryName ∧ aliasName ∈ p.2.aliases)) then m
  else
    let m2 :=
      match lookupKey aliasName m with
      | some ad =>
        eraseKey aliasName (updateKey primaryName (fun pd =>
          { pd with
            owner := if pd.owner = [] ∧ ad.owner ≠ [] then ad.owner else pd.owner
            country := if pd.country = [] ∧ ad.country ≠ [] then ad.country else pd.country
            aliases := pd.aliases ++ ad.aliases }) m)
      | none => m
    if (lookupKey primaryName m2).elim false (fun pd => decide (aliasName ∈ pd.aliases)) then
      m2
    else
      updateKey primaryName (fun pd => { pd with aliases := pd.aliases ++ [aliasName] }) m2

/-- `POST /api/horses/merge`: ensure the primary exists, then fold the
alias names through `mergeOne`. -/
def mergeHorsesOp (primaryName : List Char) (aliasNames : List (List Char))
    (m : Mapping) : Mapping :=
  let m0 := if hasKey primaryName m then m else m ++ [(primaryName, blankHorse)]
  aliasNames.foldl (mergeOne primaryName) m0

/-- `POST /api/horses/unmerge`: remove the alias from the primary's list
and re-register it as an independent blank entry. -/
def unmergeHorseOp (primaryName aliasName : List Char) (m : Mapping) : Mapping :=
  if ¬ hasKey primaryName m then m
  else if ¬ (lookupKey primaryName m).elim false
      (fun d => decide (aliasName ∈ d.aliases)) then m
  else
    setKey aliasName blankHorse
      (updateKey primaryName
        (fun d => { d with aliases := d.aliases.filter (fun a => decide (a ≠ aliasName)) }) m)

/-- `POST /api/horses/rename`: create the new canonical entry carrying
over data and aliases from the matched old entry (blank when no key
matches), add the old key and the old input spelling as aliases, then
delete the old entry. -/
def renameHorseOp (oldName newName : List Char) (m : Mapping) : Mapping :=
  if lowerS oldName = lowerS newName then m
  else
    let oldKey := (m.find? (fun p =>
      decide (lowerS p.1 = lowerS oldName) ||
      decide (stripAlnumLower p.1 = stripAlnumLower oldName))).map Prod.fst
    let oldData := (oldKey.bind (fun k => lookupKey k m)).getD blankHorse
    if m.any (fun p => decide (lowerS p.1 = lowerS newName)) then m
    else
      let m1 := setKey newName
        { owner := oldData.owner, country := oldData.country,
          isHistoric := oldData.isHistoric, aliases := oldData.aliases } m
      let m2 :=
        match oldKey with
        | some ok =>
          if (lookupKey newName m1).elim false (fun d => decide (ok ∈ d.aliases)) then m1
          else updateKey newName (fun d => { d with aliases := d.aliases ++ [ok] }) m1
        | none => m1
      let m3 :=
        if (match oldKey with | some ok => decide (oldName ≠ ok) | none => true) &&
            !((lookupKey newName m2).elim false (fun d => decide (oldName ∈ d.aliases))) then
          updateKey newName (fun d => { d with aliases := d.aliases ++ [oldName] }) m2
        else m2
      match oldKey with
      | some ok => eraseKey ok m3
      | none => m3

/-- Two entries have disjoint alias sets. -/
def aliasDisjoint (p q : (List Char) × HorseData) : Prop :=
  ∀ a ∈ p.2.aliases, a ∉ q.2.aliases

instance (p q : (List Char) × HorseData) : Decidable (aliasDisjoint p q) :=
  inferInstanceAs (Decidable (∀ a ∈ p.2.aliases, a ∉ q.2.aliases))

/-- The spec's alias-partition invariant: no alias string is present in
two different entries' alias sets. -/
def AliasInv (m : Mapping) : Prop := m.Pairwise aliasDisjoint

instance (m : Mapping) : Decidable (AliasInv m) :=
  inferInstanceAs (Decidable (m.Pairwise aliasDisjoint))

/-- Keys of a mapping. -/
def mapKeys (m : Mapping) : List (List Char) := m.map Prod.fst

/-- The merge and unmerge registry operations (the ones that preserve the
alias partition). -/
inductive RegOp where
  | mergeHorses (primaryName : List Char) (aliasNames : List (List Char))
  | unmergeHorse (primaryName aliasName : List Char)

def applyRegOp (m : Mapping) : RegOp → Mapping
  | .mergeHorses p als => mergeHorsesOp p als m
  | .unmergeHorse p a => unmergeHorseOp p a m

def applyRegOps (m : Mapping) (ops : List RegOp) : Mapping :=
  ops.foldl applyRegOp m

end Arioneo

namespace Arioneo

theorem mapKeys_updateKey (k : List Char) (f : HorseData → HorseData) (m : Mapping) :
    mapKeys (updateKey k f m) = mapKeys m := by
  unfold mapKeys updateKey
  rw [List.map_map]
  refine List.map_congr_left ?_
  intro p _
  by_cases h : p.1 = k <;> simp [h]

theorem eraseKey_sublist (k : List Char) (m : Mapping) : (eraseKey k m).Sublist m :=
  List.filter_sublist m

theorem aliasInv_eraseKey (k : List Char) {m : Mapping} (hm : AliasInv m) :
    AliasInv (eraseKey k m) :=
  List.Pairwise.sublist (eraseKey_sublist k m) hm

theorem nodupKeys_eraseKey (k : List Char) {m : Mapping}
    (hnd : (mapKeys m).Nodup) : (mapKeys (eraseKey k m)).Nodup :=
  List.Nodup.sublist (List.Sublist.map Prod.fst (eraseKey_sublist k m)) hnd

theorem mem_eraseKey {k : List Char} {m : Mapping} {p : (List Char) × HorseData}
    (hp : p ∈ eraseKey k m) : p ∈ m ∧ p.1 ≠ k := by
  unfold eraseKey at hp
  have := List.mem_filter.mp hp
  exact ⟨this.1, of_decide_eq_true this.2⟩

theorem mem_updateKey_of_ne {k : List Char} {f : HorseData → HorseData} {m : Mapping}
    {p : (List Char) × HorseData} (hp : p ∈ updateKey k f m) (hne : p.1 ≠ k) : p ∈ m := by
  unfold updateKey at hp
  rcases List.mem_map.mp hp with ⟨q, hq, hgq⟩
  by_cases hqk : q.1 = k
  · rw [if_pos hqk] at hgq
    exact absurd (by rw [← hgq]; exact hqk) hne
  · rw [if_neg hqk] at hgq
    exact hgq ▸ hq

theorem eraseKey_updateKey_comm (k' k : List Char) (f : HorseData → HorseData)
    (m : Mapping) : eraseKey k' (updateKey k f m) = updateKey k f (eraseKey k' m) := by
  unfold eraseKey updateKey
  rw [List.filter_map]
  congr 1
  refine List.filter_congr ?_
  intro p _
  by_cases h : p.1 = k <;> simp [h]

theorem lookupKey_mem {k : List Char} {m : Mapping} {d : HorseData}
    (h : lookupKey k m = some d) : (k, d) ∈ m := by
  unfold lookupKey at h
  cases hf : m.find? (fun p => decide (p.1 = k)) with
  | none => rw [hf] at h; cases h
  | some q =>
    rw [hf] at h
    have h2 : q.2 = d := by simpa using h
    have hmem := List.mem_of_find?_eq_some hf
    have h0 := List.find?_some hf
    have hpq : q.1 = k := of_decide_eq_true h0
    have : q = (k, d) := by
      cases q with | mk q1 q2 => simp only at hpq h2; rw [hpq, h2]
    rwa [this] at hmem

theorem aliasInv_pairs {m : Mapping} (hm : AliasInv m) {p q : (List Char) × HorseData}
    (hp : p ∈ m) (hq : q ∈ m) (hne : p ≠ q) : aliasDisjoint p q := by
  have h2 : m.Pairwise fun x y => aliasDisjoint x y ∨ aliasDisjoint y x :=
    hm.imp Or.inl
  have hsym : Symmetric fun x y : (List Char) × HorseData =>
      aliasDisjoint x y ∨ aliasDisjoint y x := fun x y h => h.symm
  rcases h2.forall hsym hp hq hne with h | h
  · exact h
  · intro a ha hqa
    exact h a hqa ha

/-- Master preservation lemma: updating the entry at key `k` keeps the
alias partition when each new alias either was already the entry's or
comes from `extra`, and `extra` is disjoint from every other entry. -/
theorem aliasInv_updateKey {m : Mapping} {k : List Char} {f : HorseData → HorseData}
    (extra : List (List Char))
    (hnd : (mapKeys m).Nodup)
    (hf : ∀ d a, a ∈ (f d).aliases → a ∈ d.aliases ∨ a ∈ extra)
    (hextra : ∀ p ∈ m, p.1 ≠ k → ∀ a ∈ extra, a ∉ p.2.aliases)
    (hm : AliasInv m) : AliasInv (updateKey k f m) := by
  unfold AliasInv updateKey
  rw [List.pairwise_map]
  have hkeys : m.Pairwise fun p q => p.1 ≠ q.1 := by
    have h0 : (m.map Prod.fst).Pairwise (· ≠ ·) := hnd
    rwa [List.pairwise_map] at h0
  have hcomb := hm.and hkeys
  refine hcomb.imp_of_mem ?_
  intro p q hpm hqm hr
  obtain ⟨hdis, hne⟩ := hr
  by_cases hpk : p.1 = k <;> by_cases hqk : q.1 = k
  · exact absurd (hpk.trans hqk.symm) hne
  · rw [if_pos hpk, if_neg hqk]
    intro a ha
    rcases hf p.2 a ha with h | h
    · exact hdis a h
    · exact hextra q hqm hqk a h
  · rw [if_neg hpk, if_pos hqk]
    intro a ha hfa
    rcases hf q.2 a hfa with h | h
    · exact hdis a ha h
    · exact hextra p hpm hpk a h ha
  · rw [if_neg hpk, if_neg hqk]
    exact hdis

/-- Appending a fresh entry with an empty alias set keeps the partition. -/
theorem aliasInv_append_blank {m : Mapping} (k : List Char) (hm : AliasInv m) :
    AliasInv (m ++ [(k, blankHorse)]) := by
  rw [AliasInv, List.pairwise_append]
  refine ⟨hm, List.pairwise_singleton _ _, ?_⟩
  intro p _ q hq
  rw [List.mem_singleton] at hq
  subst hq
  intro a _ hblank
  simp [blankHorse] at hblank

theorem nodupKeys_append_fresh {m : Mapping} {k : List Char} (d : HorseData)
    (hnd : (mapKeys m).Nodup) (hfresh : hasKey k m = false) :
    (mapKeys (m ++ [(k, d)])).Nodup := by
  unfold mapKeys
  rw [List.map_append, List.nodup_append]
  refine ⟨hnd, List.nodup_singleton _, ?_⟩
  intro a ha hb
  rcases List.mem_map.mp ha with ⟨p, hp, rfl⟩
  have hb' : p.1 = k := by simpa using hb
  have : m.any (fun p => decide (p.1 = k)) = true :=
    List.any_eq_true.mpr ⟨p, hp, by simp [hb']⟩
  rw [hasKey] at hfresh
  rw [this] at hfresh
  cases hfresh

end Arioneo

namespace Arioneo

theorem mergeOne_preserves {m : Mapping} (P a : List Char)
    (hnd : (mapKeys m).Nodup) (hm : AliasInv m) :
    (mapKeys (mergeOne P m a)).Nodup ∧ AliasInv (mergeOne P m a) := by
  unfold mergeOne
  by_cases h1 : a = P
  · rw [if_pos h1]; exact ⟨hnd, hm⟩
  rw [if_neg h1]
  by_cases h2 : m.any (fun p => decide (p.1 ≠ P ∧ a ∈ p.2.aliases)) = true
  · rw [if_pos h2]; exact ⟨hnd, hm⟩
  rw [if_neg h2]
  have hguard : ∀ p ∈ m, p.1 ≠ P → a ∉ p.2.aliases := by
    intro p hp hpk hpa
    exact h2 (List.any_eq_true.mpr ⟨p, hp, by simp [hpk, hpa]⟩)
  cases hl : lookupKey a m with
  | none =>
    simp only [hl]
    by_cases h3 : (lookupKey P m).elim false (fun pd => decide (a ∈ pd.aliases)) = true
    · rw [if_pos h3]; exact ⟨hnd, hm⟩
    · rw [if_neg h3]
      refine ⟨by rw [mapKeys_updateKey]; exact hnd, ?_⟩
      refine aliasInv_updateKey [a] hnd ?_ ?_ hm
      · intro d x hx
        exact List.mem_append.mp hx
      · intro p hp hpk x hxe
        have hxa : x = a := by simpa using hxe
        subst hxa
        exact hguard p hp hpk
  | some ad =>
    simp only [hl]
    have hmem_ad : (a, ad) ∈ m := lookupKey_mem hl
    rw [eraseKey_updateKey_comm]
    have hnd_e : (mapKeys (eraseKey a m)).Nodup := nodupKeys_eraseKey a hnd
    have hm_e : AliasInv (eraseKey a m) := aliasInv_eraseKey a hm
    have hm2 : AliasInv (updateKey P (fun pd =>
        { pd with
          owner := if pd.owner = [] ∧ ad.owner ≠ [] then ad.owner else pd.owner
          country := if pd.country = [] ∧ ad.country ≠ [] then ad.country else pd.country
          aliases := pd.aliases ++ ad.aliases }) (eraseKey a m)) := by
      refine aliasInv_updateKey ad.aliases hnd_e ?_ ?_ hm_e
      · intro d x hx
        exact List.mem_append.mp hx
      · intro p hp hpk x hxe hxp
        have hpm := (mem_eraseKey hp).1
        have hpa := (mem_eraseKey hp).2
        have hne : (a, ad) ≠ p := fun he => hpa (by rw [← he])
        exact aliasInv_pairs hm hmem_ad hpm hne x hxe hxp
    have hnd2 : (mapKeys (updateKey P (fun pd =>
        { pd with
          owner := if pd.owner = [] ∧ ad.owner ≠ [] then ad.owner else pd.owner
          country := if pd.country = [] ∧ ad.country ≠ [] then ad.country else pd.country
          aliases := pd.aliases ++ ad.aliases }) (eraseKey a m))).Nodup := by
      rw [mapKeys_updateKey]; exact hnd_e
    by_cases h3 : (lookupKey P (updateKey P (fun pd =>
        { pd with
          owner := if pd.owner = [] ∧ ad.owner ≠ [] then ad.owner else pd.owner
          country := if pd.country = [] ∧ ad.country ≠ [] then ad.country else pd.country
          aliases := pd.aliases ++ ad.aliases }) (eraseKey a m))).elim false
        (fun pd => decide (a ∈ pd.aliases)) = true
    · rw [if_pos h3]; exact ⟨hnd2, hm2⟩
    · rw [if_neg h3]
      refine ⟨by rw [mapKeys_updateKey]; exact hnd2, ?_⟩
      refine aliasInv_updateKey [a] hnd2 ?_ ?_ hm2
      · intro d x hx
        exact List.mem_append.mp hx
      · intro p hp hpk x hxe
        have hxa : x = a := by simpa using hxe
        subst hxa
        have hp' := mem_updateKey_of_ne hp hpk
        exact hguard p (mem_eraseKey hp').1 hpk

end Arioneo

namespace Arioneo

theorem mergeFold_preserves (P : List Char) :
    ∀ (als : List (List Char)) (m : Mapping),
      (mapKeys m).Nodup → AliasInv m →
      (mapKeys (als.foldl (mergeOne P) m)).Nodup ∧
        AliasInv (als.foldl (mergeOne P) m)
  | [], _, hnd, hm => ⟨hnd, hm⟩
  | a :: rest, m, hnd, hm => by
    have h1 := mergeOne_preserves P a hnd hm
    exact mergeFold_preserves P rest (mergeOne P m a) h1.1 h1.2

theorem mergeHorsesOp_preserves {m : Mapping} (P : List Char)
    (als : List (List Char)) (hnd : (mapKeys m).Nodup) (hm : AliasInv m) :
    (mapKeys (mergeHorsesOp P als m)).Nodup ∧ AliasInv (mergeHorsesOp P als m) := by
  unfold mergeHorsesOp
  by_cases h : hasKey P m = true
  · rw [if_pos h]
    exact mergeFold_preserves P als m hnd hm
  · rw [if_neg h]
    exact mergeFold_preserves P als (m ++ [(P, blankHorse)])
      (nodupKeys_append_fresh blankHorse hnd (Bool.eq_false_iff.mpr h))
      (aliasInv_append_blank P hm)

theorem unmergeHorseOp_preserves {m : Mapping} (P a : List Char)
    (hnd : (mapKeys m).Nodup) (hm : AliasInv m) :
    (mapKeys (unmergeHorseOp P a m)).Nodup ∧ AliasInv (unmergeHorseOp P a m) := by
  unfold unmergeHorseOp
  by_cases h1 : ¬ hasKey P m = true
  · rw [if_pos h1]; exact ⟨hnd, hm⟩
  rw [if_neg h1]
  by_cases h2 : ¬ (lookupKey P m).elim false (fun d => decide (a ∈ d.aliases)) = true
  · rw [if_pos h2]; exact ⟨hnd, hm⟩
  rw [if_neg h2]
  have hnd1 : (mapKeys (updateKey P
      (fun d => { d with aliases := d.aliases.filter (fun x => decide (x ≠ a)) }) m)).Nodup := by
    rw [mapKeys_updateKey]; exact hnd
  have hm1 : AliasInv (updateKey P
      (fun d => { d with aliases := d.aliases.filter (fun x => decide (x ≠ a)) }) m) := by
    refine aliasInv_updateKey [] hnd ?_ ?_ hm
    · intro d x hx
      exact Or.inl (List.mem_of_mem_filter hx)
    · intro p _ _ x hxe
      exact absurd hxe (List.not_mem_nil x)
  unfold setKey
  by_cases h3 : hasKey a (updateKey P
      (fun d => { d with aliases := d.aliases.filter (fun x => decide (x ≠ a)) }) m) = true
  · rw [if_pos h3]
    refine ⟨by rw [mapKeys_updateKey]; exact hnd1, ?_⟩
    refine aliasInv_updateKey [] hnd1 ?_ ?_ hm1
    · intro d x hx
      exact absurd hx (List.not_mem_nil x)
    · intro p _ _ x hxe
      exact absurd hxe (List.not_mem_nil x)
  · rw [if_neg h3]
    exact ⟨nodupKeys_append_fresh blankHorse hnd1 (Bool.eq_false_iff.mpr h3),
      aliasInv_append_blank a hm1⟩

theorem applyRegOp_preserves (op : RegOp) {m : Mapping}
    (hnd : (mapKeys m).Nodup) (hm : AliasInv m) :
    (mapKeys (applyRegOp m op)).Nodup ∧ AliasInv (applyRegOp m op) := by
  cases op with
  | mergeHorses P als => exact mergeHorsesOp_preserves P als hnd hm
  | unmergeHorse P a => exact unmergeHorseOp_preserves P a hnd hm

theorem applyRegOps_preserves :
    ∀ (ops : List RegOp) (m : Mapping), (mapKeys m).Nodup → AliasInv m →
      (mapKeys (applyRegOps m ops)).Nodup ∧ AliasInv (applyRegOps m ops)
  | [], _, hnd, hm => ⟨hnd, hm⟩
  | op :: rest, m, hnd, hm => by
    have h1 := applyRegOp_preserves op hnd hm
    exact applyRegOps_preserves rest (applyRegOp m op) h1.1 h1.2

/-- C3 (amended): starting from a mapping with distinct keys in which no
alias belongs to two entries, any sequence of merge and unmerge operations
preserves the alias-partition invariant.  (Rename does not: see the
counterexample.) -/
theorem aliasInv_merge_unmerge_sequences (ops : List RegOp) (m : Mapping)
    (hnd : (mapKeys m).Nodup) (hm : AliasInv m) :
    AliasInv (applyRegOps m ops) :=
  (applyRegOps_preserves ops m hnd hm).2

/-- Initial mapping for the C3 witness. -/
def regInvMapping : Mapping :=
  [("P".data, { blankHorse with aliases := ["x".data] })]

/-- A concrete merge-then-unmerge sequence for the C3 witness. -/
def regOpsWitness : List RegOp :=
  [RegOp.mergeHorses "P".data ["A".data], RegOp.unmergeHorse "P".data "A".data]

/-- Witness for the amended C3 theorem at a concrete mapping and
operation sequence. -/
theorem aliasInv_merge_unmerge_sequences_witness :
    AliasInv (applyRegOps regInvMapping regOpsWitness) :=
  aliasInv_merge_unmerge_sequences regOpsWitness regInvMapping (by decide) (by decide)

/-- Initial mapping for the C3 counterexample: entry "X" owns alias "A". -/
def renameCexMapping : Mapping :=
  [("X".data, { blankHorse with aliases := ["A".data] })]

/-- Counterexample to C3 as stated: the mapping `{X: aliases ["A"]}`
satisfies the partition invariant, yet renaming "A" to "B" (allowed, since
"A" is not a key) creates entry "B" with alias "A" while "X" still holds
alias "A" — one rename breaks the invariant. -/
theorem aliasInv_rename_cex :
    AliasInv renameCexMapping ∧
    ¬ AliasInv (renameHorseOp "A".data "B".data renameCexMapping) := by
  constructor
  · decide
  · decide

end Arioneo

namespace Arioneo

/-! ## Embedded regular-expression scanner

A small pattern language covering the regex literals used by
`RaceChartParser.extractRaceMetadata`.  Greedy runs (`\s+`, `\s*`, `\d+`,
optional single class characters) are matched by maximal munch, which
coincides with backtracking semantics for every pattern below because the
element following a run can never consume a character of the run. -/

inductive RElem where
  /-- case-insensitive literal -/
  | str : String → RElem
  /-- `\s+` -/
  | ws1 : RElem
  /-- `\s*` -/
  | ws0 : RElem
  /-- `\b` -/
  | wb : RElem
  /-- exact single character -/
  | ch : Char → RElem
  /-- `\d` -/
  | digit : RElem
  /-- `\d+` -/
  | digits1 : RElem
  /-- multiline `^` -/
  | bol : RElem
  /-- an optional single character of a class (`[\s-]?`) -/
  | optcls : (Char → Bool) → RElem

/-- Match a pattern at the current position; `prev` is the character just
before the position (for `\b` and multiline `^`). -/
def reMatchAt : List RElem → Option Char → List Char → Bool
  | [], _, _ => true
  | .str w :: ps, prev, s =>
    match ciConsume w.data s with
    | some rest => reMatchAt ps ((w.data.getLast?).elim prev some) rest
    | none => false
  | .ws1 :: ps, _, s =>
    match s with
    | c :: cs => if isSpaceJS c then reMatchAt ps (some ' ') (cs.dropWhile isSpaceJS) else false
    | [] => false
  | .ws0 :: ps, prev, s =>
    match s with
    | c :: cs =>
      if isSpaceJS c then reMatchAt ps (some ' ') (cs.dropWhile isSpaceJS)
      else reMatchAt ps prev (c :: cs)
    | [] => reMatchAt ps prev []
  | .wb :: ps, prev, s =>
    if prevIsWord prev != (match s with | c :: _ => isWordChar c | [] => false) then
      reMatchAt ps prev s
    else false
  | .ch c0 :: ps, _, s =>
    match s with
    | c :: cs => if c = c0 then reMatchAt ps (some c) cs else false
    | [] => false
  | .digit :: ps, _, s =>
    match s with
    | c :: cs => if c.isDigit then reMatchAt ps (some c) cs else false
    | [] => false
  | .digits1 :: ps, _, s =>
    match s with
    | c :: cs => if c.isDigit then reMatchAt ps (some '0') (cs.dropWhile Char.isDigit) else false
    | [] => false
  | .bol :: ps, prev, s =>
    if (match prev with | none => true | some c => c = '\n') then reMatchAt ps prev s
    else false
  | .optcls p :: ps, prev, s =>
    match s with
    | c :: cs => if p c then reMatchAt ps (some c) cs else reMatchAt ps prev (c :: cs)
    | [] => reMatchAt ps prev []

/-- Does the pattern match at some position of the text (JS
`text.match(re)` truthiness)? -/
def reSearchFrom (ps : List RElem) (prev : Option Char) : List Char → Bool
  | [] => reMatchAt ps prev []
  | c :: cs => reMatchAt ps prev (c :: cs) || reSearchFrom ps (some c) cs

def reSearch (ps : List RElem) (s : List Char) : Bool :=
  reSearchFrom ps none s

end Arioneo

namespace Arioneo

/-! ## Race-class resolution (`RaceChartParser.extractRaceMetadata`)

Source: `src/unnamed/part_001` lines 2814-2851; the patterns appear in the
source's order. -/

def aocPat1 : List RElem := [.str "Allowance", .ws1, .str "Optional", .ws1, .str "Claiming"]

def aocPat2 : List RElem := [.str "Optional", .ws1, .str "Claiming"]

def mswPat : List RElem := [.str "Maiden", .ws1, .str "Special", .ws1, .str "Weight"]

def mclPat : List RElem := [.str "Maiden", .ws1, .str "Claiming"]

def strPat : List RElem := [.str "Starter", .ws1, .str "Allowance"]

def alwPat : List RElem := [.wb, .str "Allowance", .wb]

def cpDollarPat : List RElem := [.str "Claiming", .ws1, .str "Price", .ws0, .ch '$']

def cDollarDigitPat : List RElem := [.wb, .str "Claiming", .ws1, .ch '$', .digit]

def hcpPat : List RElem := [.wb, .str "Handicap", .wb]

def stakes2yoPat : List RElem := [.wb, .str "Stakes", .ws1, .digits1, .str "yo"]

def bolStakesPat : List RElem := [.bol, .ws0, .str "Stakes", .wb]

/-- `/Grade\s*([I1]{1,3}|\d+)/i` at the current position: the captured
group, greedy `[I1]` alternative first (case-insensitive), else a digit
run. -/
def gradeAt (s : List Char) : Option (List Char) :=
  match ciConsume "Grade".data s with
  | some rest =>
    let rest2 := rest.dropWhile isSpaceJS
    let i1 := (rest2.takeWhile (fun c => c = 'I' || c = 'i' || c = '1')).take 3
    match i1 with
    | _ :: _ => some i1
    | [] =>
      match rest2.takeWhile Char.isDigit with
      | [] => none
      | ds => some ds
  | none => none

/-- Leftmost `Grade` capture in the text. -/
def gradeOf : List Char → Option (List Char)
  | [] => none
  | c :: cs =>
    match gradeAt (c :: cs) with
    | some g => some g
    | none => gradeOf cs

/-- The `G${grade}` race type, with Roman numerals I/II/III mapped to
digits (an exact, case-sensitive comparison in the source). -/
def gradeResult (t : List Char) : List Char :=
  match gradeOf t with
  | some g =>
    let g2 := if g = "I".data then "1".data
      else if g = "II".data then "2".data
      else if g = "III".data then "3".data
      else g
    'G' :: g2
  | none => "UNK".data

/-- The character class `[A-Za-z'\s\-\.]` of the stakes-name regex. -/
def classCharJS (c : Char) : Bool :=
  c.isAlpha || c = Char.ofNat 39 || isSpaceJS c || c = '-' || c = '.'

/-- The name-ending alternation of the stakes-name regex. -/
def stakesEnders : List (List Char) :=
  ["S.".data, "Stakes".data, "H.".data, "Handicap".data, "Derby".data,
   "Oaks".data, "Cup".data, "Futurity".data, "Classic".data, "Mile".data,
   "Sprint".data, "Distaff".data, "Breeders".data ++ [Char.ofNat 39]]

def enderAt (s : List Char) : Bool :=
  stakesEnders.any (fun w => (ciConsume w s).isSome)

/-- One-or-more class characters followed by an ender (the backtracking
split of `[A-Za-z'\s\-\.]+(?:S\.|Stakes|...)`). -/
def classThenEnder : List Char → Bool
  | [] => false
  | c :: cs => classCharJS c && (enderAt cs || classThenEnder cs)

/-- The captured stakes-name group `([A-Z][A-Za-z'\s\-\.]+(?:...))` with
the `/i` flag (so the leading `[A-Z]` accepts any letter). -/
def stakesGroupAt : List Char → Bool
  | c :: cs => isLetterJS c && classThenEnder cs
  | [] => false

/-- Track-name alternation of the stakes-name regex. -/
def stakesTracks : List (List Char) :=
  ["Saratoga".data, "Churchill".data, "Belmont".data, "Keeneland".data,
   "Gulfstream".data, "Del Mar".data, "Santa Anita".data, "Aqueduct".data,
   "Woodbine".data, "Oaklawn".data, "Tampa Bay".data, "Fair Grounds".data,
   "Monmouth".data, "Laurel".data, "Parx".data, "Pimlico".data]

/-- `\s*\n\s*` then the stakes-name group: the whitespace run before the
group must contain a newline. -/
def stakesAfterTrack (s : List Char) : Bool :=
  (s.takeWhile isSpaceJS).contains '\n' && stakesGroupAt (s.dropWhile isSpaceJS)

/-- Does the stakes-name regex match anywhere in the text (making
`raceName` non-empty in the source)? -/
def stakesNameFound : List Char → Bool
  | [] => false
  | c :: cs =>
    stakesTracks.any (fun w =>
      match ciConsume w (c :: cs) with
      | some rest => stakesAfterTrack rest
      | none => false) ||
    stakesNameFound cs

def aocB (t : List Char) : Bool := reSearch aocPat1 t || reSearch aocPat2 t

def mswB (t : List Char) : Bool := reSearch mswPat t

def stakesB (t : List Char) : Bool :=
  stakesNameFound t || reSearch stakes2yoPat t || reSearch bolStakesPat t

def mclB (t : List Char) : Bool := reSearch mclPat t

def strB (t : List Char) : Bool := reSearch strPat t

def alwB (t : List Char) : Bool := reSearch alwPat t

def cpDollarB (t : List Char) : Bool := reSearch cpDollarPat t

def cDollarDigitB (t : List Char) : Bool := reSearch cDollarDigitPat t

def hcpB (t : List Char) : Bool := reSearch hcpPat t

/-- The race-type if/else chain of `extractRaceMetadata` (source order). -/
def extractRaceType (t : List Char) : List Char :=
  if aocB t then "AOC".data
  else if mswB t then "MSW".data
  else if (gradeOf t).isSome then gradeResult t
  else if stakesB t then "STK".data
  else if mclB t then "MCL".data
  else if strB t then "STR".data
  else if alwB t && !cpDollarB t then "ALW".data
  else if cpDollarB t || cDollarDigitB t then "CLM".data
  else if hcpB t then "HCP".data
  else "UNK".data

/-- Modelled from the spec's words (design note, section 9): the priority
chain as an explicit ordered list of (predicate, result) pairs evaluated
top to bottom. -/
def raceTypeRules : List ((List Char → Bool) × (List Char → List Char)) :=
  [(aocB, fun _ => "AOC".data),
   (mswB, fun _ => "MSW".data),
   (fun t => (gradeOf t).isSome, gradeResult),
   (stakesB, fun _ => "STK".data),
   (mclB, fun _ => "MCL".data),
   (strB, fun _ => "STR".data),
   (fun t => alwB t && !cpDollarB t, fun _ => "ALW".data),
   (fun t => cpDollarB t || cDollarDigitB t, fun _ => "CLM".data),
   (hcpB, fun _ => "HCP".data)]

/-- First-match evaluation of an ordered rule list. -/
def resolveFirst (rules : List ((List Char → Bool) × (List Char → List Char)))
    (deflt : List Char) (t : List Char) : List Char :=
  match rules with
  | [] => deflt
  | (p, r) :: rest => if p t then r t else resolveFirst rest deflt t

end Arioneo

namespace Arioneo

/-- C5 (amended): race-class resolution is exactly the first-match
evaluation of the fixed priority list AOC > MSW > graded > named stakes >
MCL > STR > ALW > CLM > HCP; and a text containing "Maiden Claiming" with
no "$" claiming-price pattern resolves to MCL (not CLM) whenever none of
the four higher-priority patterns (optional claiming, maiden special
weight, grade, stakes) also matches. -/
theorem extractRaceType_priority :
    (∀ t, extractRaceType t = resolveFirst raceTypeRules "UNK".data t) ∧
    (∀ t, mclB t = true → cpDollarB t = false → cDollarDigitB t = false →
      aocB t = false → mswB t = false → gradeOf t = none → stakesB t = false →
      extractRaceType t = "MCL".data ∧ extractRaceType t ≠ "CLM".data) := by
  constructor
  · intro t
    rfl
  · intro t hmcl hcp hcd haoc hmsw hgr hstk
    have hres : extractRaceType t = "MCL".data := by
      simp [extractRaceType, hmcl, hcp, hcd, haoc, hmsw, hgr, hstk]
    refine ⟨hres, ?_⟩
    rw [hres]
    decide

/-- Witness for C5 at the text "Maiden Claiming 2yo Fillies". -/
theorem extractRaceType_priority_witness :
    extractRaceType "Maiden Claiming 2yo Fillies".data = "MCL".data ∧
    extractRaceType "Maiden Claiming 2yo Fillies".data ≠ "CLM".data :=
  extractRaceType_priority.2 "Maiden Claiming 2yo Fillies".data
    (by decide) (by decide) (by decide) (by decide) (by decide) (by decide) (by decide)

/-- Counterexample to C5's universal clause as stated: the text
"Maiden Special Weight Maiden Claiming" contains "Maiden Claiming" and no
"$" claiming-price pattern, yet resolves to MSW, not MCL (the
higher-priority pattern wins). -/
theorem extractRaceType_mcl_cex :
    mclB "Maiden Special Weight Maiden Claiming".data = true ∧
    cpDollarB "Maiden Special Weight Maiden Claiming".data = false ∧
    cDollarDigitB "Maiden Special Weight Maiden Claiming".data = false ∧
    extractRaceType "Maiden Special Weight Maiden Claiming".data = "MSW".data ∧
    "MSW".data ≠ "MCL".data := by
  refine ⟨by decide, by decide, by decide, by decide, by decide⟩

end Arioneo

namespace Arioneo

/-! ## Distance, surface, and track extraction
(`RaceChartParser.extractRaceMetadata`, `getTrackAbbreviation`)

Source: `src/unnamed/part_001` lines 2642-2708 and 2713-2799.  Distances
are modelled as exact rationals (the JS floats never overflow or round on
these small values, except for the explicit `Math.round(x*10)/10`, which
is modelled exactly).  A rational division by zero is 0 here where JS
yields Infinity; no claim touches that corner. -/

/-- `Math.round` (half toward positive infinity). -/
def jsRound (x : Rat) : Int := (x + 1 / 2).floor

/-- `Math.round(x * 10) / 10`. -/
def jsRound10 (x : Rat) : Rat := (jsRound (x * 10) : Rat) / 10

/-- `(\d+)\s+(\d+)\/(\d+)\s*<unit>` at the current position (the mixed
fraction shared by the Miles and Furlongs patterns). -/
def mixedFracAt (unit : String) (s : List Char) : Option (Nat × Nat × Nat) :=
  match s.takeWhile Char.isDigit with
  | [] => none
  | d1 =>
    match s.dropWhile Char.isDigit with
    | c :: cs =>
      if isSpaceJS c then
        let r2 := cs.dropWhile isSpaceJS
        match r2.takeWhile Char.isDigit with
        | [] => none
        | d2 =>
          match r2.dropWhile Char.isDigit with
          | '/' :: r3 =>
            match r3.takeWhile Char.isDigit with
            | [] => none
            | d3 =>
              if (ciConsume unit.data
                  ((r3.dropWhile Char.isDigit).dropWhile isSpaceJS)).isSome then
                some (natOfDigits d1, natOfDigits d2, natOfDigits d3)
              else none
          | _ => none
      else none
    | [] => none

def mixedFracSearch (unit : String) : List Char → Option (Nat × Nat × Nat)
  | [] => none
  | c :: cs =>
    match mixedFracAt unit (c :: cs) with
    | some r => some r
    | none => mixedFracSearch unit cs

/-- `(\d+)\s*Miles?(?:\s|$)` at the current position. -/
def milesSimpleAt (s : List Char) : Option Nat :=
  match s.takeWhile Char.isDigit with
  | [] => none
  | d1 =>
    match ciConsume "Mile".data
        ((s.dropWhile Char.isDigit).dropWhile isSpaceJS) with
    | some r3 =>
      match r3 with
      | [] => some (natOfDigits d1)
      | c :: cs =>
        if (c = 's' || c = 'S') &&
            (match cs with | [] => true | c2 :: _ => isSpaceJS c2) then
          some (natOfDigits d1)
        else if isSpaceJS c then some (natOfDigits d1)
        else none
    | none => none

def milesSimpleSearch : List Char → Option Nat
  | [] => none
  | c :: cs =>
    match milesSimpleAt (c :: cs) with
    | some r => some r
    | none => milesSimpleSearch cs

/-- `(\d+(?:\.\d+)?)\s*Furlong` at the current position, with the
captured value read as JS `parseFloat` does. -/
def furlongDecAt (s : List Char) : Option Rat :=
  match s.takeWhile Char.isDigit with
  | [] => none
  | d1 =>
    let r1 := s.dropWhile Char.isDigit
    let valRest : Rat × List Char :=
      match r1 with
      | '.' :: r2 =>
        match r2.takeWhile Char.isDigit with
        | [] => ((natOfDigits d1 : Rat), r1)
        | dn => ((natOfDigits d1 : Rat) +
            (natOfDigits dn : Rat) / ((10 : Rat) ^ dn.length),
          r2.dropWhile Char.isDigit)
      | _ => ((natOfDigits d1 : Rat), r1)
    if (ciConsume "Furlong".data (valRest.2.dropWhile isSpaceJS)).isSome then
      some valRest.1
    else none

def furlongDecSearch : List Char → Option Rat
  | [] => none
  | c :: cs =>
    match furlongDecAt (c :: cs) with
    | some r => some r
    | none => furlongDecSearch cs

/-- The word alternatives of `(\d+|Seven|Six|Five|Eight|Nine)\s*Furlong`
with their `wordToNumber` values. -/
def furlongWords : List (List Char × Nat) :=
  [("Seven".data, 7), ("Six".data, 6), ("Five".data, 5),
   ("Eight".data, 8), ("Nine".data, 9)]

/-- `(\d+|Seven|Six|Five|Eight|Nine)\s*Furlong` at the current position
(`wordToNumber[w] || parseInt(w)`). -/
def furlongWordAt (s : List Char) : Option Nat :=
  match s.takeWhile Char.isDigit with
  | _ :: _ =>
    if (ciConsume "Furlong".data
        ((s.dropWhile Char.isDigit).dropWhile isSpaceJS)).isSome then
      some (natOfDigits (s.takeWhile Char.isDigit))
    else none
  | [] =>
    (furlongWords.filterMap (fun w =>
      match ciConsume w.1 s with
      | some rest =>
        if (ciConsume "Furlong".data (rest.dropWhile isSpaceJS)).isSome then
          some w.2
        else none
      | none => none)).head?

def furlongWordSearch : List Char → Option Nat
  | [] => none
  | c :: cs =>
    match furlongWordAt (c :: cs) with
    | some r => some r
    | none => furlongWordSearch cs

/-- The distance cascade of `extractRaceMetadata` (lines 2731-2777),
returning the furlong value (0 when no pattern matches). -/
def extractDistanceF (t : List Char) : Rat :=
  match mixedFracSearch "Mile" t with
  | some (w, n, d) => jsRound10 (((w : Rat) + (n : Rat) / (d : Rat)) * 8)
  | none =>
    match milesSimpleSearch t with
    | some mi => (mi : Rat) * 8
    | none =>
      match mixedFracSearch "Furlong" t with
      | some (w, n, d) => (w : Rat) + (n : Rat) / (d : Rat)
      | none =>
        match furlongDecSearch t with
        | some q => q
        | none =>
          match furlongWordSearch t with
          | some n => (n : Nat)
          | none => 0

end Arioneo

namespace Arioneo

def innerTurfPat : List RElem := [.str "inner", .ws1, .str "turf"]

def turfPat : List RElem := [.str "turf"]

def synthPat : List RElem := [.str "synthetic"]

def allWeatherPat : List RElem := [.str "all", .optcls (fun c => isSpaceJS c || c = '-'), .str "weather"]

def dirtPat : List RElem := [.str "dirt"]

/-- The surface detection chain of `extractRaceMetadata` (lines
2721-2729), before the Turfway override; the default is Dirt. -/
def extractSurface (t : List Char) : List Char :=
  if reSearch innerTurfPat t || reSearch turfPat t then "T".data
  else if reSearch synthPat t || reSearch allWeatherPat t then "AWT".data
  else if reSearch dirtPat t then "D".data
  else "D".data

/-- The `trackAbbreviations` table (lines 2642-2683), in source order. -/
def trackAbbreviations : List (List Char × List Char) :=
  [("churchill downs".data, "CD".data), ("churchill".data, "CD".data),
   ("woodbine".data, "WO".data), ("santa anita".data, "SA".data),
   ("belmont".data, "BEL".data), ("belmont park".data, "BEL".data),
   ("saratoga".data, "SAR".data), ("keeneland".data, "KEE".data),
   ("gulfstream".data, "GP".data), ("gulfstream park".data, "GP".data),
   ("del mar".data, "DMR".data), ("arlington".data, "AP".data),
   ("oaklawn".data, "OP".data), ("oaklawn park".data, "OP".data),
   ("aqueduct".data, "AQU".data), ("laurel".data, "LRL".data),
   ("laurel park".data, "LRL".data), ("pimlico".data, "PIM".data),
   ("monmouth".data, "MTH".data), ("monmouth park".data, "MTH".data),
   ("tampa bay".data, "TAM".data), ("tampa bay downs".data, "TAM".data),
   ("fair grounds".data, "FG".data), ("los alamitos".data, "LA".data),
   ("golden gate".data, "GG".data), ("golden gate fields".data, "GG".data),
   ("turfway".data, "TP".data), ("turfway park".data, "TP".data),
   ("parx".data, "PRX".data), ("penn national".data, "PEN".data),
   ("charles town".data, "CT".data), ("remington".data, "RP".data),
   ("remington park".data, "RP".data), ("lone star".data, "LS".data),
   ("lone star park".data, "LS".data), ("indiana grand".data, "IND".data),
   ("canterbury".data, "CBY".data), ("ellis park".data, "ELP".data),
   ("colonial downs".data, "CNL".data),
   ("horseshoe indianapolis".data, "IND".data)]

/-- `getTrackAbbreviation(trackName)`: exact lookup, then bidirectional
substring lookup, then a first-letters / first-3-characters fallback. -/
def getTrackAbbreviation (trackName : List Char) : List Char :=
  match trackName with
  | [] => "UNK".data
  | _ :: _ =>
    let lower := jsTrim (lowerS trackName)
    match trackAbbreviations.find? (fun p => decide (p.1 = lower)) with
    | some p => p.2
    | none =>
      match trackAbbreviations.find?
          (fun p => jsIncludes lower p.1 || jsIncludes p.1 lower) with
      | some p => p.2
      | none =>
        match (trackName.splitOn ' ').filter (fun w => w.length > 0) with
        | w1 :: w2 :: _ => upperS [w1.headD ' ', w2.headD ' ']
        | _ => upperS (trackName.take 3)

/-- The known track display names tried in order (lines 2780-2787). -/
def trackNames : List (List Char) :=
  ["Churchill Downs".data, "Woodbine".data, "Santa Anita".data,
   "Belmont".data, "Saratoga".data, "Keeneland".data, "Gulfstream".data,
   "Del Mar".data, "Arlington".data, "Oaklawn".data, "Aqueduct".data,
   "Laurel".data, "Pimlico".data, "Monmouth".data, "Tampa Bay".data,
   "Fair Grounds".data, "Los Alamitos".data, "Golden Gate".data,
   "Turfway".data, "Parx".data, "Penn National".data, "Charles Town".data,
   "Remington".data, "Lone Star".data, "Indiana Grand".data,
   "Canterbury".data, "Ellis Park".data, "Colonial Downs".data,
   "Horseshoe Indianapolis".data]

/-- Split a name at its first space (JS `replace(' ', '\\s+')` replaces
only the first occurrence; every listed name has at most one space). -/
def splitFirstSpace : List Char → Option (List Char × List Char)
  | [] => none
  | c :: cs =>
    if c = ' ' then some ([], cs)
    else
      match splitFirstSpace cs with
      | some (a, b) => some (c :: a, b)
      | none => none

/-- The per-track regex `new RegExp(trackName.replace(' ', '\\s+'), 'i')`. -/
def trackPat (name : List Char) : List RElem :=
  match splitFirstSpace name with
  | some (a, b) => [.str a.asString, .ws1, .str b.asString]
  | none => [.str name.asString]

/-- The track loop of `extractRaceMetadata` (lines 2789-2794). -/
def extractTrack (t : List Char) : List Char :=
  match trackNames.find? (fun name => reSearch (trackPat name) t) with
  | some name => getTrackAbbreviation name
  | none => "UNK".data

/-- The metadata fields the claims reach (date extraction and the
stakes-name capture string are not modelled; `raceType` covers the
class-resolution chain). -/
structure RaceMeta where
  surface : List Char
  track : List Char
  distanceInFurlongs : Rat
  raceType : List Char

/-- `RaceChartParser.extractRaceMetadata`: surface detection first, then
distance, then the track loop, then the Turfway hard override
`if (track === 'TP') surface = 'AWT'` (lines 2796-2799), then race type. -/
def extractRaceMetadata (t : List Char) : RaceMeta :=
  let surface0 := extractSurface t
  let distance := extractDistanceF t
  let track := extractTrack t
  let surface := if track = "TP".data then "AWT".data else surface0
  { surface := surface, track := track, distanceInFurlongs := distance,
    raceType := extractRaceType t }

end Arioneo

namespace Arioneo

/-- C9: whenever metadata extraction resolves the track to Turfway
("TP"), the returned surface is "AWT", overriding the text-based surface
detection. -/
theorem turfway_track_forces_awt (t : List Char)
    (h : (extractRaceMetadata t).track = "TP".data) :
    (extractRaceMetadata t).surface = "AWT".data := by
  unfold extractRaceMetadata at h ⊢
  simp only at h ⊢
  rw [if_pos h]

/-- Witness for C9: a Turfway document (whose text even matches the turf
pattern) comes back with surface "AWT". -/
theorem turfway_track_forces_awt_witness :
    (extractRaceMetadata "Turfway Park 6 Furlongs Dirt".data).surface =
      "AWT".data :=
  turfway_track_forces_awt "Turfway Park 6 Furlongs Dirt".data (by decide)

unseal Rat.mul Rat.inv Rat.add Rat.sub in
/-- C8 (amended): distance parsing accepts mixed-fraction and
whole-number miles and mixed-fraction, decimal, and spelled-out furlongs,
normalizing miles at 8 furlongs per mile ("1 1/16 Miles" gives 8.5
furlongs); decimal miles are not supported (see the counterexample). -/
theorem extractDistance_forms :
    extractDistanceF "1 1/16 Miles".data = 17 / 2 ∧
    extractDistanceF "5 1/2 Furlongs".data = 11 / 2 ∧
    extractDistanceF "1 Mile".data = 8 ∧
    extractDistanceF "1 1/8 Miles".data = 9 ∧
    extractDistanceF "6 Furlongs Dirt".data = 6 ∧
    extractDistanceF "6.5 Furlongs".data = 13 / 2 ∧
    extractDistanceF "Seven Furlongs".data = 7 :=
  ⟨by decide, by decide, by decide, by decide, by decide, by decide, by decide⟩

unseal Rat.mul Rat.inv Rat.add Rat.sub in
/-- Counterexample to C8 as stated: decimal miles are not parsed as
miles — "1.5 Miles" is read via the whole-number pattern as 5 miles (40
furlongs), not 12 furlongs; and spelled-out miles ("One Mile") are not
recognized at all (0 furlongs, not 8). -/
theorem extractDistance_decimalMiles_cex :
    extractDistanceF "1.5 Miles".data = 40 ∧
    extractDistanceF "1.5 Miles".data ≠ (3 / 2 : Rat) * 8 ∧
    extractDistanceF "One Mile".data = 0 ∧
    extractDistanceF "One Mile".data ≠ 8 :=
  ⟨by decide, by decide, by decide, by decide⟩

end Arioneo

namespace Arioneo

/-! ## Final-time selection (`RaceChartParser.parseHorseFromChart`)

Source: `src/unnamed/part_001` lines 3299-3322. -/

/-- One `[12]:\d{2}\.\d{2}` match (a fixed 7-character shape). -/
def timeShape (c1 c2 c3 c4 c5 c6 c7 : Char) : Bool :=
  (c1 = '1' || c1 = '2') && c2 = ':' && c3.isDigit && c4.isDigit &&
    c5 = '.' && c6.isDigit && c7.isDigit

/-- Global scan `afterHorse.match(/[12]:\d{2}\.\d{2}/g)`: leftmost match
first, resuming after each match. -/
def scanTimes : List Char → List (List Char)
  | c1 :: c2 :: c3 :: c4 :: c5 :: c6 :: c7 :: cs =>
    if timeShape c1 c2 c3 c4 c5 c6 c7 then
      [c1, c2, c3, c4, c5, c6, c7] :: scanTimes cs
    else
      scanTimes (c2 :: c3 :: c4 :: c5 :: c6 :: c7 :: cs)
  | _ => []

/-- First CI occurrence index:
`horseLine.toLowerCase().indexOf(horseName.toLowerCase())`. -/
def indexOfFrom (pat : List Char) : Nat → List Char → Option Nat
  | i, [] => if startsWith [] pat then some i else none
  | i, c :: cs => if startsWith (c :: cs) pat then some i else indexOfFrom pat (i + 1) cs

/-- `horseLine.substring(horseIndex + horseName.length)` (when the name is
absent, `indexOf` is -1 and JS clamps the negative start). -/
def afterHorse (line name : List Char) : List Char :=
  match indexOfFrom (lowerS name) 0 (lowerS line) with
  | some i => line.drop (i + name.length)
  | none => line.drop (name.length - 1)

/-- `finalTime = allMinutesTimes.length > 0 ? allMinutesTimes[0] : '-'`. -/
def finalTimeSel (s : List Char) : List Char :=
  match scanTimes s with
  | [] => "-".data
  | t :: _ => t

/-- C6: among all minute:second-pattern times found after the horse name,
the FIRST occurrence is selected as the final time; any later occurrence
(e.g. an adjacent horse's time pulled in by boundary bleed) is never
selected unless it is character-identical to the first. -/
theorem finalTime_takes_first (line name t : List Char) (rest : List (List Char))
    (h : scanTimes (afterHorse line name) = t :: rest) :
    finalTimeSel (afterHorse line name) = t ∧
    ∀ t2 ∈ rest, t2 ≠ t → finalTimeSel (afterHorse line name) ≠ t2 := by
  constructor
  · unfold finalTimeSel
    rw [h]
  · intro t2 _ hne
    unfold finalTimeSel
    rw [h]
    exact fun he => hne he.symm

/-- Witness for C6: a row whose boundary bleed pulled in the next horse's
time "1:09.50" still yields "1:10.12" as the final time. -/
theorem finalTime_takes_first_witness :
    finalTimeSel (afterHorse
      "Horsey5.20rallied wide23.4547.801:10.12 1:09.50KY".data "Horsey".data) =
      "1:10.12".data ∧
    ∀ t2 ∈ ["1:09.50".data], t2 ≠ "1:10.12".data →
      finalTimeSel (afterHorse
        "Horsey5.20rallied wide23.4547.801:10.12 1:09.50KY".data "Horsey".data) ≠ t2 :=
  finalTime_takes_first
    "Horsey5.20rallied wide23.4547.801:10.12 1:09.50KY".data "Horsey".data
    "1:10.12".data ["1:09.50".data] (by decide)

end Arioneo

namespace Arioneo

/-! ## Duplicate guard and race saving

Source: `src/unnamed/part_001` lines 3587-3615 (`checkDuplicateRace`) and
3811-3930 (`POST /api/race-charts/save`).  A stored history entry carries
many display-only columns; only the fields the duplicate key reads
(`date`, `track`, `isRace`) are modelled.  `checkDuplicateRace` re-reads
the persisted session, so within one request it checks against the store
as of the start of the request, while entries accumulate in the in-memory
copy. -/

structure RaceEntry where
  date : List Char
  track : List Char
  isRace : Bool
  deriving Repr, DecidableEq

/-- `sessionData.allHorseDetailData`, in insertion order. -/
abbrev DetailData := List (List Char × List RaceEntry)

def lookupD (k : List Char) (m : DetailData) : Option (List RaceEntry) :=
  (m.find? (fun p => decide (p.1 = k))).map Prod.snd

def hasKeyD (k : List Char) (m : DetailData) : Bool :=
  m.any (fun p => decide (p.1 = k))

def updateKeyD (k : List Char) (f : List RaceEntry → List RaceEntry)
    (m : DetailData) : DetailData :=
  m.map (fun p => if p.1 = k then (p.1, f p.2) else p)

/-- Does `\s*\([A-Z]{2,3}\)$` match the whole of `s`? -/
def countrySuffixAt (s : List Char) : Bool :=
  match s.dropWhile isSpaceJS with
  | '(' :: r2 =>
    (decide ((r2.takeWhile (fun c => 'A' ≤ c && c ≤ 'Z')).length = 2) ||
     decide ((r2.takeWhile (fun c => 'A' ≤ c && c ≤ 'Z')).length = 3)) &&
    decide (r2.dropWhile (fun c => 'A' ≤ c && c ≤ 'Z') = [')'])
  | _ => false

def stripCountryGo : Nat → List Char → Option Nat
  | _, [] => none
  | i, c :: cs => if countrySuffixAt (c :: cs) then some i else stripCountryGo (i + 1) cs

/-- `.replace(/\s*\([A-Z]{2,3}\)$/g, '')`: remove the leftmost
end-anchored country-code suffix (the result is a prefix of the input). -/
def stripCountry (s : List Char) : List Char :=
  match stripCountryGo 0 s with
  | some n => s.take n
  | none => s

/-- `horseName.toUpperCase().replace(/\s*\([A-Z]{2,3}\)$/g, '').trim()`. -/
def normUpName (s : List Char) : List Char :=
  jsTrim (stripCountry (upperS s))

/-- `checkDuplicateRace(horseName, raceDate, track)` over the stored
detail data: some key equal to / containing / contained in the normalized
name holds a race entry with that date and track. -/
def checkDuplicateRace (data : DetailData) (horseName raceDate track : List Char) : Bool :=
  data.any (fun kv =>
    (decide (upperS kv.1 = normUpName horseName) ||
     jsIncludes (upperS kv.1) (normUpName horseName) ||
     jsIncludes (normUpName horseName) (upperS kv.1)) &&
    kv.2.any (fun e =>
      e.isRace && decide (e.date = raceDate) && decide (e.track = track)))

structure Race where
  horseName : List Char
  date : List Char
  track : List Char

/-- `existingKeys.find(k => k.toLowerCase() === race.horseName.toLowerCase())`,
defaulting to the incoming name. -/
def findHorseKey (data : DetailData) (name : List Char) : List Char :=
  match data.find? (fun kv => decide (lowerS kv.1 = lowerS name)) with
  | some kv => kv.1
  | none => name

/-- Stable insert for the date-descending sort (`(a, b) => dateB - dateA`;
`new Date` parsing is a platform function, passed in as `dateVal`). -/
def insertDesc (dateVal : List Char → Int) (e : RaceEntry) :
    List RaceEntry → List RaceEntry
  | [] => [e]
  | f :: fs =>
    if dateVal f.date < dateVal e.date then e :: f :: fs
    else f :: insertDesc dateVal e fs

/-- The endpoint's stable date-descending sort of one horse's entries. -/
def sortByDateDesc (dateVal : List Char → Int) : List RaceEntry → List RaceEntry
  | [] => []
  | e :: es => insertDesc dateVal e (sortByDateDesc dateVal es)

/-- One iteration of the save loop: resolve the horse key
case-insensitively against the in-memory data, skip when the store
already holds the (identity, date, track) race, else append the race
entry under the key and re-sort that horse's entries. -/
def saveOneRace (dateVal : List Char → Int) (store sd : DetailData)
    (race : Race) : DetailData × Bool :=
  let horseKey := findHorseKey sd race.horseName
  if checkDuplicateRace store horseKey race.date race.track then (sd, true)
  else
    let sd1 := if hasKeyD horseKey sd then sd else sd ++ [(horseKey, [])]
    (updateKeyD horseKey
      (fun es => sortByDateDesc dateVal (es ++ [⟨race.date, race.track, true⟩])) sd1,
     false)

def saveRacesGo (dateVal : List Char → Int) (store : DetailData) :
    DetailData → List Race → DetailData × List Race
  | sd, [] => (sd, [])
  | sd, r :: rs =>
    let step := saveOneRace dateVal store sd r
    let rest := saveRacesGo dateVal store step.1 rs
    (rest.1, if step.2 then r :: rest.2 else rest.2)

/-- `POST /api/race-charts/save`: fetch the session, run the loop over
the submitted races (duplicates are skipped and reported), persist the
result.  Returns (new stored data, skipped races). -/
def saveRacesRequest (dateVal : List Char → Int) (store : DetailData)
    (races : List Race) : DetailData × List Race :=
  saveRacesGo dateVal store store races

/-- Number of race entries for the (key, date, track) triple. -/
def countTriple (data : DetailData) (key date track : List Char) : Nat :=
  ((lookupD key data).getD []).countP
    (fun e => e.isRace && decide (e.date = date) && decide (e.track = track))

end Arioneo

namespace Arioneo

theorem startsWith_append_self : ∀ (b q : List Char), startsWith (b ++ q) b = true
  | [], _ => by simp [startsWith]
  | c :: b', q => by simp [startsWith, startsWith_append_self b' q]

theorem jsIncludes_nil : ∀ (a : List Char), jsIncludes a [] = true
  | [] => rfl
  | _ :: tl => by simp [jsIncludes, startsWith]

theorem jsIncludes_append : ∀ (p b q : List Char), jsIncludes (p ++ (b ++ q)) b = true
  | [], b, q => by
    cases b with
    | nil => simpa using jsIncludes_nil q
    | cons c b' =>
      have h := startsWith_append_self (c :: b') q
      simp only [List.nil_append]
      show (startsWith (c :: b' ++ q) (c :: b') || jsIncludes (b' ++ q) (c :: b')) = true
      rw [h]
      rfl
  | c :: p', b, q => by
    have h := jsIncludes_append p' b q
    unfold jsIncludes
    simp [h]

theorem exists_trim_decomp (s : List Char) : ∃ p q, s = p ++ (jsTrim s ++ q) := by
  refine ⟨s.takeWhile isSpaceJS,
    ((s.dropWhile isSpaceJS).reverse.takeWhile isSpaceJS).reverse, ?_⟩
  unfold jsTrim dropEndWhile
  have h1 : s.dropWhile isSpaceJS =
      ((s.dropWhile isSpaceJS).reverse.dropWhile isSpaceJS).reverse ++
      ((s.dropWhile isSpaceJS).reverse.takeWhile isSpaceJS).reverse := by
    rw [← List.reverse_append, List.takeWhile_append_dropWhile, List.reverse_reverse]
  conv_lhs => rw [← @List.takeWhile_append_dropWhile Char isSpaceJS s, h1]

theorem exists_strip_decomp (s : List Char) : ∃ q, s = stripCountry s ++ q := by
  unfold stripCountry
  cases h : stripCountryGo 0 s with
  | none => exact ⟨[], by simp⟩
  | some n => exact ⟨s.drop n, (List.take_append_drop n s).symm⟩

theorem jsIncludes_normUp_self (k : List Char) :
    jsIncludes (upperS k) (normUpName k) = true := by
  obtain ⟨q, hq⟩ := exists_strip_decomp (upperS k)
  obtain ⟨p, r, hpr⟩ := exists_trim_decomp (stripCountry (upperS k))
  have hdec : upperS k = p ++ (normUpName k ++ (r ++ q)) := by
    conv_lhs => rw [hq, hpr]
    simp [normUpName, List.append_assoc]
  rw [hdec]
  exact jsIncludes_append p (normUpName k) (r ++ q)

theorem checkDuplicateRace_hit {data : DetailData} {key d tr : List Char}
    {l : List RaceEntry} {e : RaceEntry}
    (hkv : (key, l) ∈ data) (he : e ∈ l) (hr : e.isRace = true)
    (hd : e.date = d) (ht : e.track = tr) :
    checkDuplicateRace data key d tr = true := by
  unfold checkDuplicateRace
  refine List.any_eq_true.mpr ⟨(key, l), hkv, ?_⟩
  rw [Bool.and_eq_true]
  refine ⟨?_, ?_⟩
  · simp [jsIncludes_normUp_self key]
  · exact List.any_eq_true.mpr ⟨e, he, by simp [hr, hd, ht]⟩

theorem insertDesc_perm (dv : List Char → Int) (e : RaceEntry) :
    ∀ l, (insertDesc dv e l).Perm (e :: l)
  | [] => List.Perm.refl _
  | f :: fs => by
    unfold insertDesc
    split
    · exact List.Perm.refl _
    · exact ((insertDesc_perm dv e fs).cons f).trans (List.Perm.swap e f fs)

theorem sortByDateDesc_perm (dv : List Char → Int) :
    ∀ l, (sortByDateDesc dv l).Perm l
  | [] => List.Perm.refl _
  | e :: es => (insertDesc_perm dv e _).trans ((sortByDateDesc_perm dv es).cons e)

end Arioneo

namespace Arioneo

theorem findHorseKey_getD (m : DetailData) (n : List Char) :
    findHorseKey m n =
      ((m.find? (fun kv => decide (lowerS kv.1 = lowerS n))).map Prod.fst).getD n := by
  unfold findHorseKey
  cases m.find? (fun kv => decide (lowerS kv.1 = lowerS n)) <;> rfl

theorem find?_updateKeyD_map_fst (k : List Char)
    (f : List RaceEntry → List RaceEntry) (n : List Char) :
    ∀ m : DetailData,
      ((updateKeyD k f m).find? (fun kv => decide (lowerS kv.1 = lowerS n))).map Prod.fst =
      (m.find? (fun kv => decide (lowerS kv.1 = lowerS n))).map Prod.fst
  | [] => rfl
  | p :: tl => by
    have hfst : (if p.1 = k then (p.1, f p.2) else p).1 = p.1 := by
      by_cases hp : p.1 = k <;> simp [hp]
    unfold updateKeyD
    simp only [List.map_cons, List.find?, hfst]
    by_cases hpred : lowerS p.1 = lowerS n
    · simp [hpred, hfst]
    · simp only [hpred, decide_False]
      have := find?_updateKeyD_map_fst k f n tl
      unfold updateKeyD at this
      simpa [hpred] using this

theorem findHorseKey_updateKeyD (k : List Char) (f : List RaceEntry → List RaceEntry)
    (n : List Char) (m : DetailData) :
    findHorseKey (updateKeyD k f m) n = findHorseKey m n := by
  rw [findHorseKey_getD, findHorseKey_getD, find?_updateKeyD_map_fst]

theorem find?_append_of_none {α : Type} {p : α → Bool} {l₁ : List α} (l₂ : List α)
    (h : l₁.find? p = none) : (l₁ ++ l₂).find? p = l₂.find? p := by
  induction l₁ with
  | nil => rfl
  | cons a tl ih =>
    rw [List.find?_eq_none] at h
    have ha : ¬ p a = true := h a (List.mem_cons_self a tl)
    have htl : tl.find? p = none := by
      rw [List.find?_eq_none]
      intro x hx
      exact h x (List.mem_cons_of_mem a hx)
    rw [List.cons_append, List.find?_cons_of_neg _ ha]
    exact ih htl

theorem lookupD_updateKeyD (k : List Char) (f : List RaceEntry → List RaceEntry) :
    ∀ m : DetailData, lookupD k (updateKeyD k f m) = (lookupD k m).map f
  | [] => rfl
  | p :: tl => by
    unfold lookupD updateKeyD
    simp only [List.map_cons, List.find?]
    by_cases hp : p.1 = k
    · simp [hp]
    · simp only [if_neg hp]
      have := lookupD_updateKeyD k f tl
      unfold lookupD updateKeyD at this
      simpa [hp] using this

theorem lookupD_mem {k : List Char} {m : DetailData} {es : List RaceEntry}
    (h : lookupD k m = some es) : (k, es) ∈ m := by
  unfold lookupD at h
  cases hf : m.find? (fun p => decide (p.1 = k)) with
  | none => rw [hf] at h; cases h
  | some q =>
    rw [hf] at h
    have h2 : q.2 = es := by simpa using h
    have hmem := List.mem_of_find?_eq_some hf
    have h0 := List.find?_some hf
    have hpq : q.1 = k := of_decide_eq_true h0
    have hq : q = (k, es) := by
      cases q with | mk q1 q2 => simp only at hpq h2; rw [hpq, h2]
    rwa [hq] at hmem

theorem hasKeyD_false_find?_none {k : List Char} {m : DetailData}
    (h : hasKeyD k m = false) : m.find? (fun p => decide (p.1 = k)) = none := by
  rw [List.find?_eq_none]
  intro x hx hpx
  have hany : m.any (fun p => decide (p.1 = k)) = true :=
    List.any_eq_true.mpr ⟨x, hx, hpx⟩
  unfold hasKeyD at h
  rw [hany] at h
  cases h

theorem findHorseKey_cases (store : DetailData) (n : List Char) :
    (store.find? (fun kv => decide (lowerS kv.1 = lowerS n)) = none ∧
      findHorseKey store n = n) ∨
    (∃ kv, store.find? (fun kv => decide (lowerS kv.1 = lowerS n)) = some kv ∧
      findHorseKey store n = kv.1 ∧ hasKeyD kv.1 store = true) := by
  cases hf : store.find? (fun kv => decide (lowerS kv.1 = lowerS n)) with
  | none => exact Or.inl ⟨rfl, by unfold findHorseKey; rw [hf]⟩
  | some kv =>
    refine Or.inr ⟨kv, rfl, by unfold findHorseKey; rw [hf], ?_⟩
    exact List.any_eq_true.mpr ⟨kv, List.mem_of_find?_eq_some hf, by simp⟩

end Arioneo

namespace Arioneo

theorem hasKeyD_lookupD_isSome {k : List Char} {m : DetailData}
    (h : hasKeyD k m = true) : ∃ es, lookupD k m = some es := by
  unfold hasKeyD at h
  obtain ⟨x, hx, hpx⟩ := List.any_eq_true.mp h
  obtain ⟨y, hy⟩ :=
    @find?_eq_some_of_mem _ m (fun p => decide (p.1 = k)) x hx hpx
  exact ⟨y.2, by unfold lookupD; rw [hy]; rfl⟩

/-- C2: committing the same (horse identity, date, track) twice yields
exactly one history entry for the triple.  When the store has no race
entry for the triple and the duplicate guard does not fire, the first
save adds the entry (and skips nothing); the second identical request is
skipped as a duplicate and leaves the store unchanged, so the count for
the triple stays exactly one.  No confidence value enters this path. -/
theorem saveRace_exactly_once (dateVal : List Char → Int) (store : DetailData)
    (race : Race)
    (hdup : checkDuplicateRace store (findHorseKey store race.horseName)
      race.date race.track = false)
    (hcount : countTriple store (findHorseKey store race.horseName)
      race.date race.track = 0) :
    (saveRacesRequest dateVal store [race]).2 = [] ∧
    countTriple (saveRacesRequest dateVal store [race]).1
      (findHorseKey store race.horseName) race.date race.track = 1 ∧
    saveRacesRequest dateVal (saveRacesRequest dateVal store [race]).1 [race] =
      ((saveRacesRequest dateVal store [race]).1, [race]) := by
  set key := findHorseKey store race.horseName with hkey
  have hfirst : saveRacesRequest dateVal store [race] =
      (updateKeyD key
        (fun es => sortByDateDesc dateVal (es ++ [⟨race.date, race.track, true⟩]))
        (if hasKeyD key store then store else store ++ [(key, [])]), []) := by
    simp only [saveRacesRequest, saveRacesGo, saveOneRace, ← hkey, hdup,
      Bool.false_eq_true, if_false]
  have hbase : ∃ es0,
      lookupD key (if hasKeyD key store then store else store ++ [(key, [])]) =
        some es0 ∧
      es0.countP (fun e => e.isRace && decide (e.date = race.date) &&
        decide (e.track = race.track)) = 0 ∧
      findHorseKey (if hasKeyD key store then store else store ++ [(key, [])])
        race.horseName = key := by
    by_cases hk : hasKeyD key store = true
    · rw [if_pos hk]
      obtain ⟨es0, hes0⟩ := hasKeyD_lookupD_isSome hk
      refine ⟨es0, hes0, ?_, hkey.symm⟩
      have := hcount
      unfold countTriple at this
      rw [hes0] at this
      simpa using this
    · have hk' : hasKeyD key store = false := Bool.eq_false_iff.mpr hk
      rw [if_neg hk]
      rcases findHorseKey_cases store race.horseName with ⟨hnone, hself⟩ |
        ⟨kv, _, hfk, hhk⟩
      · have hkn : key = race.horseName := by rw [hkey, hself]
        refine ⟨[], ?_, by simp, ?_⟩
        · unfold lookupD
          rw [find?_append_of_none _ (hasKeyD_false_find?_none hk')]
          simp [List.find?]
        · rw [hkn]
          rw [findHorseKey_getD, find?_append_of_none _ hnone]
          simp [List.find?]
      · exfalso
        have hkkv : key = kv.1 := by rw [hkey, hfk]
        rw [hkkv, hhk] at hk'
        cases hk'
  obtain ⟨es0, hlook0, hcnt0, hfk1⟩ := hbase
  refine ⟨?_, ?_, ?_⟩
  · rw [hfirst]
  · rw [hfirst]
    unfold countTriple
    rw [lookupD_updateKeyD, hlook0]
    simp only [Option.map_some', Option.getD_some]
    rw [List.Perm.countP_eq _ (sortByDateDesc_perm dateVal _), List.countP_append,
      hcnt0]
    simp
  · rw [hfirst]
    have hfk2 : findHorseKey (updateKeyD key
        (fun es => sortByDateDesc dateVal (es ++ [⟨race.date, race.track, true⟩]))
        (if hasKeyD key store then store else store ++ [(key, [])]))
        race.horseName = key := by
      rw [findHorseKey_updateKeyD]
      exact hfk1
    have hmem1 : (key, sortByDateDesc dateVal
        (es0 ++ [⟨race.date, race.track, true⟩])) ∈ updateKeyD key
        (fun es => sortByDateDesc dateVal (es ++ [⟨race.date, race.track, true⟩]))
        (if hasKeyD key store then store else store ++ [(key, [])]) := by
      apply lookupD_mem
      rw [lookupD_updateKeyD, hlook0]
      rfl
    have hment : (⟨race.date, race.track, true⟩ : RaceEntry) ∈
        sortByDateDesc dateVal (es0 ++ [⟨race.date, race.track, true⟩]) := by
      rw [List.Perm.mem_iff (sortByDateDesc_perm dateVal _)]
      simp
    have hdup2 := checkDuplicateRace_hit hmem1 hment rfl rfl rfl
    simp only [saveRacesRequest, saveRacesGo, saveOneRace, hfk2, hdup2, if_true]
end Arioneo

namespace Arioneo

/-- Store and race for the C2 witness. -/
def witnessStore : DetailData :=
  [("Zed".data, [⟨"1/1/2024".data, "AQU".data, true⟩])]

def witnessRace : Race := ⟨"Blanco".data, "7/1/2025".data, "CD".data⟩

/-- Witness for C2: saving Blanco's race twice into a store that held an
unrelated horse leaves exactly one entry for the triple, with the second
request skipped. -/
theorem saveRace_exactly_once_witness :
    (saveRacesRequest (fun _ => 0) witnessStore [witnessRace]).2 = [] ∧
    countTriple (saveRacesRequest (fun _ => 0) witnessStore [witnessRace]).1
      (findHorseKey witnessStore witnessRace.horseName)
      witnessRace.date witnessRace.track = 1 ∧
    saveRacesRequest (fun _ => 0)
      (saveRacesRequest (fun _ => 0) witnessStore [witnessRace]).1 [witnessRace] =
      ((saveRacesRequest (fun _ => 0) witnessStore [witnessRace]).1,
        [witnessRace]) :=
  saveRace_exactly_once (fun _ => 0) witnessStore witnessRace
    (by decide) (by decide)

/-- C10: the duplicate guard matches horse identities by equality or
bidirectional substring containment of the upper-cased key against the
normalized upper-cased input name, returning true exactly when such a key
holds a race entry with the given date and track; in particular a race is
flagged against the different horse "Blanco Grande" when checking
"Blanco". -/
theorem checkDuplicateRace_semantics :
    (∀ (data : DetailData) (horseName raceDate track : List Char),
      checkDuplicateRace data horseName raceDate track = true ↔
      ∃ kv ∈ data,
        (upperS kv.1 = normUpName horseName ∨
         jsIncludes (upperS kv.1) (normUpName horseName) = true ∨
         jsIncludes (normUpName horseName) (upperS kv.1) = true) ∧
        ∃ e ∈ kv.2, e.isRace = true ∧ e.date = raceDate ∧ e.track = track) ∧
    checkDuplicateRace
      [("Blanco Grande".data, [⟨"7/1/2025".data, "CD".data, true⟩])]
      "Blanco".data "7/1/2025".data "CD".data = true := by
  constructor
  · intro data hn d tr
    unfold checkDuplicateRace
    simp only [List.any_eq_true, Bool.and_eq_true, Bool.or_eq_true,
      decide_eq_true_eq]
    constructor
    · rintro ⟨kv, hkv, hmatch, e, he, hprops⟩
      refine ⟨kv, hkv, or_assoc.mp hmatch, e, he, ?_⟩
      obtain ⟨⟨hr, hd⟩, ht⟩ := hprops
      exact ⟨hr, hd, ht⟩
    · rintro ⟨kv, hkv, hmatch, e, he, hr, hd, ht⟩
      exact ⟨kv, hkv, or_assoc.mpr hmatch, e, he, ⟨hr, hd⟩, ht⟩
  · decide

end Arioneo
